

import Mathlib

/-
Verification of the Random_Number_Generator library against its design
specification.  The pseudorandom engines (MT19937, LCG, BBS, the two
NIST SP 800-90A DRBG variants and the XOR combiner) are shallowly
embedded: Python integers become Nat or Int with explicit masking,
byte strings become lists of Nat, dict states become structures, and
fallible operations return Option.  The hash and HMAC primitives used
by the DRBGs are external collaborators of the library (hashlib and
hmac), so they are passed as function parameters, exactly as the spec
describes them in its external-interfaces section.
-/

set_option maxRecDepth 10000

/-! ### MT19937 constants, from mersenne_twister.py -/

def MATRIX_A : Nat := 0x9908B0DF

def UPPER_MASK : Nat := 0x80000000

def LOWER_MASK : Nat := 0x7FFFFFFF

def MASK_32 : Nat := 0xFFFFFFFF

/-- Tempering transform of MT19937, translated from temper in
mersenne_twister.py: four successive xor-with-shifted-self steps. -/
def temper (y : Nat) : Nat :=
  let y1 := y ^^^ (y >>> 11)
  let y2 := y1 ^^^ ((y1 <<< 7) &&& 0x9D2C5680)
  let y3 := y2 ^^^ ((y2 <<< 15) &&& 0xEFC60000)
  y3 ^^^ (y3 >>> 18)

/-- Inverse of the tempering transform, translated from untemper in
mersenne_twister.py: the shift-18 and shift-15 steps are undone in one
application each, the shift-7 step by a four-fold iteration and the
shift-11 step by a two-fold iteration, with a final 32-bit mask. -/
def untemper (y : Nat) : Nat :=
  let a := y ^^^ (y >>> 18)
  let b := a ^^^ ((a <<< 15) &&& 0xEFC60000)
  let t1 := b ^^^ ((b <<< 7) &&& 0x9D2C5680)
  let t2 := b ^^^ ((t1 <<< 7) &&& 0x9D2C5680)
  let t3 := b ^^^ ((t2 <<< 7) &&& 0x9D2C5680)
  let t4 := b ^^^ ((t3 <<< 7) &&& 0x9D2C5680)
  let u1 := t4 ^^^ (t4 >>> 11)
  let u2 := t4 ^^^ (u1 >>> 11)
  u2 &&& 0xFFFFFFFF

/-! ### Stage decompositions used in the tempering proofs -/

/-- Left-shift-and-mask stage of the tempering transform. -/
def maskShift (k m x : Nat) : Nat := (x <<< k) &&& m

/-- xor-with-right-shift stage of the tempering transform. -/
def xorShiftR (k x : Nat) : Nat := x ^^^ (x >>> k)

/-- xor-with-masked-left-shift stage of the tempering transform. -/
def xorMaskL (k m x : Nat) : Nat := x ^^^ maskShift k m x

/-- The four-fold iteration from untemper that inverts the shift-7
masking stage. -/
def invMaskL7 (z : Nat) : Nat :=
  let t1 := z ^^^ maskShift 7 0x9D2C5680 z
  let t2 := z ^^^ maskShift 7 0x9D2C5680 t1
  let t3 := z ^^^ maskShift 7 0x9D2C5680 t2
  z ^^^ maskShift 7 0x9D2C5680 t3

/-- The two-fold iteration from untemper that inverts the shift-11
stage. -/
def invShiftR11 (z : Nat) : Nat :=
  let u1 := z ^^^ (z >>> 11)
  z ^^^ (u1 >>> 11)

/-- State of the Mersenne Twister: the dict with keys mt and index. -/
structure MTState where
  mt : List Nat
  index : Nat

/-- The twist combination of two adjacent state words, from the body
of mt_twist: keep the top bit of the first and the low 31 bits of the
second, shift right once and conditionally xor the twist matrix. -/
def twistVal (a b : Nat) : Nat :=
  let x := (a &&& UPPER_MASK) ||| (b &&& LOWER_MASK)
  let xA := x >>> 1
  if x &&& 1 ≠ 0 then xA ^^^ MATRIX_A else xA

/-- One iteration of the in-place twist loop: position i is rewritten
from positions i, i+1 and i+397 of the current, partially updated
array. -/
def twistStep (mt : List Nat) (i : Nat) : List Nat :=
  mt.set i ((mt.getD ((i + 397) % 624) 0) ^^^
    twistVal (mt.getD i 0) (mt.getD ((i + 1) % 624) 0))

def twistAux : Nat → Nat → List Nat → List Nat
  | 0, _, mt => mt
  | fuel + 1, i, mt => twistAux fuel (i + 1) (twistStep mt i)

/-- The twist operation, from mt_twist: regenerate all 624 words in
place. -/
def mt_twist (mt : List Nat) : List Nat := twistAux 624 0 mt

/-- Extraction, from mt_extract: twist when the cursor has reached
624, then temper the word under the cursor, mask and advance. -/
def mt_extract (s : MTState) : Nat × MTState :=
  let s' := if s.index ≥ 624 then MTState.mk (mt_twist s.mt) 0 else s
  (temper (s'.mt.getD s'.index 0) &&& MASK_32, MTState.mk s'.mt (s'.index + 1))

/-- n successive extractions, returning outputs in emission order
together with the final state. -/
def extractN : Nat → MTState → List Nat × MTState
  | 0, s => ([], s)
  | n + 1, s =>
    let p := mt_extract s
    let q := extractN n p.2
    (p.1 :: q.1, q.2)

/-- Seeding recurrence of mt_init, filling words 1 to 623. -/
def mtInitAux : Nat → Nat → Nat → List Nat
  | 0, _, _ => []
  | fuel + 1, i, prev =>
    let w := (1812433253 * (prev ^^^ (prev >>> 30)) + i) &&& MASK_32
    w :: mtInitAux fuel (i + 1) w

/-- Initialisation from a seed, from mt_init: word 0 is the masked
seed, the rest follow the seeding recurrence, cursor starts at 624. -/
def mt_init (seed : Nat) : MTState :=
  MTState.mk ((seed &&& MASK_32) :: mtInitAux 623 1 (seed &&& MASK_32)) 624

/-- Cloning from 624 observed outputs, from clone_mt in
mt_state_recovery.py: check the count, untemper every output into the
word array and force the cursor to 624. -/
def clone_mt (outputs : List Nat) : Option MTState :=
  if outputs.length = 624 then some (MTState.mk (outputs.map untemper) 624)
  else none

/-! ### The sliding word sequence and the twist invariant -/

/-- The infinite MT word sequence generated from a 624-word window by
the sliding recurrence; used only in proofs. -/
def xseq (g : Nat → Nat) (n : Nat) : Nat :=
  if n < 624 then g n
  else xseq g (n - 227) ^^^ twistVal (xseq g (n - 624)) (xseq g (n - 623))
termination_by n
decreasing_by all_goals omega

/-- A list is the 624-word window of the sliding sequence based at b. -/
def WindowAt (g : Nat → Nat) (b : Nat) (mt : List Nat) : Prop :=
  mt.length = 624 ∧ ∀ j, j < 624 → mt.getD j 0 = xseq g (b + j)

/-- The expected output stream of an engine positioned at p on the
sliding sequence; used only in proofs. -/
def outSeq (g : Nat → Nat) : Nat → Nat → List Nat
  | _, 0 => []
  | p, n + 1 => (temper (xseq g p) &&& MASK_32) :: outSeq g (p + 1) n

/-- The n-word window of the sliding sequence starting at p, as a
list; used only in proofs. -/
def winList (g : Nat → Nat) : Nat → Nat → List Nat
  | _, 0 => []
  | p, n + 1 => xseq g p :: winList g (p + 1) n

/-! ### Linear congruential generator, from LCG.py -/

def DEFAULT_A : Int := 1103515245

def DEFAULT_C : Int := 12345

def DEFAULT_M : Int := 2 ^ 31

/-- Python integer modulo: the result takes the sign of the divisor
(floored modulus); a zero divisor raises ZeroDivisionError, modelled
as none. -/
def pymod (x m : Int) : Option Int :=
  if m = 0 then none else some (Int.fmod x m)

/-- lcg_next from LCG.py: new_state = (a * state + c) % m, returned
both as the value and as the new state. -/
def lcg_next (state a c m : Int) : Option (Int × Int) :=
  (pymod (a * state + c) m).map (fun v => (v, v))

/-- The loop of lcg_generate_sequence: repeatedly advance the state
and collect the values. -/
def lcgSeqAux : Nat → Int → Int → Int → Int → Option (List Int × Int)
  | 0, s, _, _, _ => some ([], s)
  | n + 1, s, a, c, m =>
    match pymod (a * s + c) m with
    | none => none
    | some s' => (lcgSeqAux n s' a c m).map (fun p => (s' :: p.1, p.2))

/-- lcg_generate_sequence from LCG.py: reduce the seed modulo m, then
generate n values. -/
def lcg_generate_sequence (n : Nat) (seed a c m : Int) :
    Option (List Int × Int) :=
  match pymod seed m with
  | none => none
  | some s0 => lcgSeqAux n s0 a c m

/-- The loop of lcg_generate_bytes; the Python expression state & 0xFF
equals the nonnegative residue of the state modulo 256, also for
negative states. -/
def lcgBytesAux : Nat → Int → Int → Int → Int → Option (List Int × Int)
  | 0, s, _, _, _ => some ([], s)
  | n + 1, s, a, c, m =>
    match pymod (a * s + c) m with
    | none => none
    | some s' => (lcgBytesAux n s' a c m).map (fun p => (s'.emod 256 :: p.1, p.2))

/-- lcg_generate_bytes from LCG.py. -/
def lcg_generate_bytes (n : Nat) (seed a c m : Int) :
    Option (List Int × Int) :=
  match pymod seed m with
  | none => none
  | some s0 => lcgBytesAux n s0 a c m

/-! ### Blum-Blum-Shub, from BBS.py -/

def DEFAULT_P : Nat := 1000003

def DEFAULT_Q : Nat := 2001911

/-- State of the BBS generator: the dict with keys state, M, p, q. -/
structure BBSState where
  state : Nat
  M : Nat
  p : Nat
  q : Nat

/-- The rejection-sampling loop of bbs_init when no seed is supplied.
The randint draws (Python's random library, an external collaborator)
are supplied as a stream of candidates; the loop accepts the first
candidate coprime with m, and none models exhaustion of the stream. -/
def bbsSample (m : Nat) : List Nat → Option Nat
  | [] => none
  | c :: rest => if Nat.gcd c m = 1 then some c else bbsSample m rest

/-- bbs_init from BBS.py: with a supplied seed, raise ValueError
(none) unless it is coprime with M = p*q; with no seed,
rejection-sample from the candidate stream and run the same check. -/
def bbs_init (seed : Option Nat) (p q : Nat) (candidates : List Nat) :
    Option BBSState :=
  let m := p * q
  match seed with
  | some s =>
    if Nat.gcd s m ≠ 1 then none
    else some (BBSState.mk s m p q)
  | none =>
    match bbsSample m candidates with
    | none => none
    | some s =>
      if Nat.gcd s m ≠ 1 then none
      else some (BBSState.mk s m p q)

/-- bbs_next_bit from BBS.py: square modulo M, emit the parity. -/
def bbs_next_bit (s : BBSState) : Nat × BBSState :=
  let s' := BBSState.mk ((s.state ^ 2) % s.M) s.M s.p s.q
  (s'.state % 2, s')

/-! ### XOR combiner, from xor_nrbg.py -/

/-- The inner loop of xor_bytes_list for one source: xor the first n
bytes of ba into the accumulator; Python raises IndexError (none)
when the source is shorter than n, and silently ignores any bytes of
ba beyond position n-1. -/
def xorInto (n : Nat) (acc ba : List Nat) : Option (List Nat) :=
  if ba.length < n then none
  else some (List.zipWith (fun x y => x ^^^ y) acc (ba.take n))

def xorFold (n : Nat) : List Nat → List (List Nat) → Option (List Nat)
  | acc, [] => some acc
  | acc, ba :: rest =>
    match xorInto n acc ba with
    | none => none
    | some acc' => xorFold n acc' rest

/-- xor_bytes_list from xor_nrbg.py: n is the length of the first
input; the first n bytes of every input are xored position-wise into
a zero buffer of length n; an empty input list raises IndexError. -/
def xor_bytes_list (byte_arrays : List (List Nat)) : Option (List Nat) :=
  match byte_arrays with
  | [] => none
  | b0 :: _ =>
    xorFold b0.length (List.replicate b0.length 0) byte_arrays

/-- xor_nrbg_generate_custom from xor_nrbg.py: truncate every
generator output to n bytes, then combine. -/
def xor_nrbg_generate_custom (n : Nat) (generator_outputs : List (List Nat)) :
    Option (List Nat) :=
  xor_bytes_list (generator_outputs.map (fun o => o.take n))

/-! ### HMAC-DRBG, from DRBG.py.  The HMAC primitive (Python's hmac
with SHA-256) is an external collaborator and is a parameter hm,
taking the key and the message to a 32-byte digest. -/

/-- State of the HMAC DRBG: V, Key, the reseed counter and the
reseed interval (10000 at construction). -/
structure HmacDrbgState where
  V : List Nat
  Key : List Nat
  reseed_counter : Nat
  reseed_interval : Nat

/-- The HMAC_DRBG update function, from _update in DRBG.py.  The
provided data as an empty list models both None and an empty byte
string, which Python's truthiness treats identically. -/
def hmacUpdate (hm : List Nat → List Nat → List Nat)
    (provided_data : List Nat) (st : HmacDrbgState) : HmacDrbgState :=
  let K1 := hm st.Key (st.V ++ [0] ++ provided_data)
  let V1 := hm K1 st.V
  if provided_data = [] then
    HmacDrbgState.mk V1 K1 st.reseed_counter st.reseed_interval
  else
    let K2 := hm K1 (V1 ++ [1] ++ provided_data)
    let V2 := hm K2 V1
    HmacDrbgState.mk V2 K2 st.reseed_counter st.reseed_interval

/-- _instantiate from DRBG.py: Key is 32 zero bytes, V is 32 bytes of
0x01, then update with entropy, nonce and personalization
concatenated; the counter starts at 1, the interval is 10000. -/
def hmacInstantiate (hm : List Nat → List Nat → List Nat)
    (entropy nonce personalization : List Nat) : HmacDrbgState :=
  hmacUpdate hm (entropy ++ nonce ++ personalization)
    (HmacDrbgState.mk (List.replicate 32 1) (List.replicate 32 0) 1 10000)

/-- reseed from DRBG.py: update with entropy concatenated with the
optional additional input, then reset the counter to 1. -/
def hmacReseed (hm : List Nat → List Nat → List Nat)
    (entropy additional_input : List Nat) (st : HmacDrbgState) :
    HmacDrbgState :=
  let st' := hmacUpdate hm (entropy ++ additional_input) st
  HmacDrbgState.mk st'.V st'.Key 1 st'.reseed_interval

/-- The generation loop of generate: V = HMAC(Key, V), temp += V,
while temp is shorter than num_bytes.  The fuel argument equals
num_bytes, which always suffices because every digest of the 32-byte
HMAC collaborator is non-empty. -/
def hmacGenLoop (hm : List Nat → List Nat → List Nat) (K : List Nat) :
    Nat → Nat → List Nat → List Nat → List Nat × List Nat
  | 0, _, V, temp => (V, temp)
  | fuel + 1, numBytes, V, temp =>
    if temp.length < numBytes then
      hmacGenLoop hm K fuel numBytes (hm K V) (temp ++ hm K V)
    else (V, temp)

/-- generate from DRBG.py: refuse (None, state untouched) when the
reseed counter exceeds the interval; otherwise update with a
non-empty additional input, produce blocks, truncate, update again
(with the same additional input, possibly absent) and increment the
counter. -/
def hmacGenerate (hm : List Nat → List Nat → List Nat)
    (num_bytes : Nat) (additional_input : List Nat) (st : HmacDrbgState) :
    Option (List Nat) × HmacDrbgState :=
  if st.reseed_counter > st.reseed_interval then (none, st)
  else
    let st1 := if additional_input ≠ [] then hmacUpdate hm additional_input st
      else st
    let p := hmacGenLoop hm st1.Key num_bytes num_bytes st1.V []
    let st2 := hmacUpdate hm additional_input
      (HmacDrbgState.mk p.1 st1.Key st1.reseed_counter st1.reseed_interval)
    (some (p.2.take num_bytes),
      HmacDrbgState.mk st2.V st2.Key (st2.reseed_counter + 1)
        st2.reseed_interval)

/-! ### Hash-DRBG, from hash_drbg.py.  The SHA-256 primitive is an
external collaborator and is a parameter, taking a byte string to a
32-byte digest. -/

def SEED_LEN : Nat := 55

/-- Big-endian byte string to integer, int.from_bytes(data, big). -/
def bytesToNat (bs : List Nat) : Nat := bs.foldl (fun acc b => acc * 256 + b) 0

/-- Integer to big-endian byte string of the given length,
int.to_bytes(length, big). -/
def natToBytes : Nat → Nat → List Nat
  | 0, _ => []
  | len + 1, n => natToBytes len (n / 256) ++ [n % 256]

/-- The block loop of Hash_df, counting the hashed blocks upward. -/
def hashDfAux (hash : List Nat → List Nat) (input_data : List Nat)
    (num_bytes : Nat) : Nat → Nat → List Nat
  | 0, _ => []
  | blocks + 1, counter =>
    hash (natToBytes 1 counter ++ natToBytes 4 num_bytes ++ input_data) ++
      hashDfAux hash input_data num_bytes blocks (counter + 1)

/-- Hash_df from hash_drbg.py: concatenate hashes of the counter
byte, the four-byte output length and the input, then truncate. -/
def hash_df (hash : List Nat → List Nat) (input_data : List Nat)
    (num_bytes : Nat) : List Nat :=
  (hashDfAux hash input_data num_bytes ((num_bytes + 31) / 32) 1).take num_bytes

/-- State of the Hash DRBG: the dict with keys V, C, reseed_counter. -/
structure HashDrbgState where
  V : List Nat
  C : List Nat
  reseed_counter : Nat

/-- drbg_instantiate from hash_drbg.py, the entropy and nonce given
explicitly (their os.urandom defaults are the OS entropy
collaborator). -/
def drbg_instantiate (hash : List Nat → List Nat)
    (entropy nonce personalization : List Nat) : HashDrbgState :=
  let seed := hash_df hash (entropy ++ nonce ++ personalization) SEED_LEN
  HashDrbgState.mk seed (hash_df hash (0 :: seed) SEED_LEN) 1

/-- drbg_reseed from hash_drbg.py: seed = Hash_df(0x01 + V + entropy),
V = seed, C = Hash_df(0x00 + seed), counter reset to 1. -/
def drbg_reseed (hash : List Nat → List Nat) (st : HashDrbgState)
    (entropy : List Nat) : HashDrbgState :=
  let seed := hash_df hash (1 :: (st.V ++ entropy)) SEED_LEN
  HashDrbgState.mk seed (hash_df hash (0 :: seed) SEED_LEN) 1

/-- The block loop of drbg_generate: W += hash(data), with data
re-encoded from its integer value plus one each round. -/
def drbgGenAux (hash : List Nat → List Nat) (vlen : Nat) :
    Nat → List Nat → List Nat
  | 0, _ => []
  | m + 1, data =>
    hash data ++ drbgGenAux hash vlen m
      (natToBytes vlen ((bytesToNat data + 1) % 2 ^ (data.length * 8)))

/-- drbg_generate from hash_drbg.py: produce ceil(n/32) hash-chain
blocks from V, truncate to n bytes, then V += H + C + reseed_counter
modulo 2^440 and the counter increments.  This variant has no
reseed-interval check. -/
def drbg_generate (hash : List Nat → List Nat) (st : HashDrbgState)
    (num_bytes : Nat) : List Nat × HashDrbgState :=
  let m := (num_bytes + 31) / 32
  let W := drbgGenAux hash st.V.length m st.V
  let H := hash (3 :: st.V)
  let newV := (bytesToNat st.V + bytesToNat H + bytesToNat st.C +
      st.reseed_counter) % 2 ^ (SEED_LEN * 8)
  (W.take num_bytes,
    HashDrbgState.mk (natToBytes SEED_LEN newV) st.C (st.reseed_counter + 1))

/-! ### Theorems: bitwise helper lemmas -/

theorem shiftRight_xor_distrib (a b k : Nat) :
    (a ^^^ b) >>> k = (a >>> k) ^^^ (b >>> k) := by
  apply Nat.eq_of_testBit_eq
  intro i
  simp

theorem shiftLeft_xor_distrib (a b k : Nat) :
    (a ^^^ b) <<< k = (a <<< k) ^^^ (b <<< k) := by
  apply Nat.eq_of_testBit_eq
  intro i
  simp only [Nat.testBit_shiftLeft, Nat.testBit_xor]
  cases h : decide (i ≥ k) <;> simp

theorem xor_xor_cancel (a b c : Nat) : (a ^^^ b) ^^^ (b ^^^ c) = a ^^^ c := by
  rw [Nat.xor_assoc, ← Nat.xor_assoc b b c, Nat.xor_self, Nat.zero_xor]

theorem shiftRight_eq_zero_of_lt {y k : Nat} (h : y < 2 ^ k) : y >>> k = 0 := by
  rw [Nat.shiftRight_eq_div_pow]
  exact Nat.div_eq_of_lt h

/-- If a power of two divides one operand of a bitwise and, it divides
the result. -/
theorem pow_two_dvd_and_left {k : Nat} {a : Nat} (b : Nat) (h : 2 ^ k ∣ a) :
    2 ^ k ∣ a &&& b := by
  obtain ⟨c, hc⟩ := h
  have hshift : a = c <<< k := by rw [Nat.shiftLeft_eq, hc, Nat.mul_comm]
  have key : (c <<< k) &&& b = (c &&& (b >>> k)) <<< k := by
    apply Nat.eq_of_testBit_eq
    intro i
    simp only [Nat.testBit_and, Nat.testBit_shiftLeft, Nat.testBit_shiftRight]
    by_cases hik : k ≤ i
    · have : k + (i - k) = i := by omega
      simp [ge_iff_le, hik, this, Bool.and_assoc]
    · simp [ge_iff_le, hik]
  rw [hshift, key, Nat.shiftLeft_eq]
  exact ⟨c &&& (b >>> k), Nat.mul_comm _ _⟩

theorem pow_two_dvd_and_right {k : Nat} (a : Nat) {b : Nat} (h : 2 ^ k ∣ b) :
    2 ^ k ∣ a &&& b := by
  rw [Nat.and_comm]
  exact pow_two_dvd_and_left a h

/-- A step of a tempering stage treated abstractly: if f distributes
over xor, then xoring z = y xor f y with f of a partially recovered
value advances the recovery by one application of f. -/
theorem xor_step (f : Nat → Nat) (hf : ∀ a b, f (a ^^^ b) = f a ^^^ f b)
    (y w : Nat) : (y ^^^ f y) ^^^ f (y ^^^ w) = y ^^^ f w := by
  rw [hf]
  exact xor_xor_cancel y (f y) (f w)

/-! ### Inversion of the individual tempering stages -/

theorem maskShift_xor (k m a b : Nat) :
    maskShift k m (a ^^^ b) = maskShift k m a ^^^ maskShift k m b := by
  unfold maskShift
  rw [shiftLeft_xor_distrib, Nat.and_xor_distrib_right]

theorem maskShift_dvd {j k m x : Nat} (h : 2 ^ j ∣ x) :
    2 ^ (j + k) ∣ maskShift k m x := by
  unfold maskShift
  apply pow_two_dvd_and_left
  obtain ⟨c, hc⟩ := h
  rw [Nat.shiftLeft_eq, hc, Nat.pow_add]
  exact ⟨c, by ring⟩

theorem shiftRightFn_xor (k a b : Nat) :
    (fun x => x >>> k) (a ^^^ b) =
      (fun x => x >>> k) a ^^^ (fun x => x >>> k) b := by
  exact shiftRight_xor_distrib a b k

theorem maskShift_dvd_self (k m x : Nat) : 2 ^ k ∣ maskShift k m x := by
  unfold maskShift
  apply pow_two_dvd_and_left
  rw [Nat.shiftLeft_eq, Nat.mul_comm]
  exact Dvd.intro _ rfl

/-- A masking stage applied to a value already divisible by a large
enough power of two vanishes, because the mask is capped. -/
theorem maskShift_vanish {j : Nat} (k m : Nat) {x : Nat} (hd : 2 ^ j ∣ x)
    (hm : m < 2 ^ (j + k)) : maskShift k m x = 0 := by
  have d : 2 ^ (j + k) ∣ maskShift k m x := maskShift_dvd hd
  have hlt : maskShift k m x < 2 ^ (j + k) :=
    Nat.lt_of_le_of_lt Nat.and_le_right hm
  exact Nat.eq_zero_of_dvd_of_lt d hlt

/-- Five applications of the shift-7 masking stage vanish: each
application gains seven factors of two while the mask keeps the value
below 2 to the 32. -/
theorem maskShift7_five (y : Nat) :
    maskShift 7 0x9D2C5680 (maskShift 7 0x9D2C5680 (maskShift 7 0x9D2C5680
      (maskShift 7 0x9D2C5680 (maskShift 7 0x9D2C5680 y)))) = 0 := by
  have d1 : 2 ^ 7 ∣ maskShift 7 0x9D2C5680 y := maskShift_dvd_self 7 _ y
  have d2 : 2 ^ 14 ∣ maskShift 7 0x9D2C5680 (maskShift 7 0x9D2C5680 y) :=
    maskShift_dvd d1
  have d3 : 2 ^ 21 ∣ maskShift 7 0x9D2C5680 (maskShift 7 0x9D2C5680
      (maskShift 7 0x9D2C5680 y)) := maskShift_dvd d2
  have d4 : 2 ^ 28 ∣ maskShift 7 0x9D2C5680 (maskShift 7 0x9D2C5680
      (maskShift 7 0x9D2C5680 (maskShift 7 0x9D2C5680 y))) := maskShift_dvd d3
  exact maskShift_vanish 7 _ d4 (by norm_num)

/-- Two applications of the shift-15 masking stage vanish: the mask
0xEFC60000 is divisible by 2 to the 17, so the second application
shifts everything past bit 31 where the mask has no bits. -/
theorem maskShift15_two (y : Nat) :
    maskShift 15 0xEFC60000 (maskShift 15 0xEFC60000 y) = 0 := by
  have hdvd : 2 ^ 17 ∣ (0xEFC60000 : Nat) := by norm_num
  have d1 : 2 ^ 17 ∣ maskShift 15 0xEFC60000 y := by
    unfold maskShift
    exact pow_two_dvd_and_right _ hdvd
  exact maskShift_vanish 15 _ d1 (by norm_num)

/-! ### Temper and untemper as compositions of stages -/

theorem temper_as_stages (y : Nat) :
    temper y =
      xorShiftR 18 (xorMaskL 15 0xEFC60000
        (xorMaskL 7 0x9D2C5680 (xorShiftR 11 y))) := rfl

theorem untemper_as_stages (z : Nat) :
    untemper z =
      invShiftR11 (invMaskL7 (xorMaskL 15 0xEFC60000 (xorShiftR 18 z)))
        &&& 0xFFFFFFFF := rfl

theorem xorShiftR_lt (k : Nat) {y n : Nat} (hy : y < 2 ^ n) :
    xorShiftR k y < 2 ^ n := by
  unfold xorShiftR
  apply Nat.xor_lt_two_pow hy
  have : y >>> k ≤ y := by
    rw [Nat.shiftRight_eq_div_pow]
    exact Nat.div_le_self _ _
  omega

theorem xorMaskL_lt (k : Nat) {m y n : Nat} (hm : m < 2 ^ n) (hy : y < 2 ^ n) :
    xorMaskL k m y < 2 ^ n := by
  unfold xorMaskL maskShift
  exact Nat.xor_lt_two_pow hy (Nat.and_lt_two_pow _ hm)

/-- Applying the xor-with-right-shift stage twice recovers the input
once the doubled shift pushes everything out of range. -/
theorem xorShiftR_double (k : Nat) {y : Nat} (h : y >>> (k + k) = 0) :
    xorShiftR k (xorShiftR k y) = y := by
  unfold xorShiftR
  rw [shiftRight_xor_distrib, ← Nat.shiftRight_add, h, xor_xor_cancel,
    Nat.xor_zero]

/-- The shift-15 masking stage is an involution. -/
theorem xorMaskL15_involutive (z : Nat) :
    xorMaskL 15 0xEFC60000 (xorMaskL 15 0xEFC60000 z) = z := by
  unfold xorMaskL
  rw [maskShift_xor, xor_xor_cancel, maskShift15_two, Nat.xor_zero]

/-- The four-fold iteration in untemper exactly inverts the shift-7
masking stage. -/
theorem invMaskL7_inverts (y : Nat) :
    invMaskL7 (xorMaskL 7 0x9D2C5680 y) = y := by
  have hf : ∀ a b : Nat, maskShift 7 0x9D2C5680 (a ^^^ b) =
      maskShift 7 0x9D2C5680 a ^^^ maskShift 7 0x9D2C5680 b :=
    fun a b => maskShift_xor 7 0x9D2C5680 a b
  simp only [invMaskL7, xorMaskL]
  rw [xor_step _ hf y (maskShift 7 0x9D2C5680 y),
    xor_step _ hf y (maskShift 7 0x9D2C5680 (maskShift 7 0x9D2C5680 y)),
    xor_step _ hf y (maskShift 7 0x9D2C5680 (maskShift 7 0x9D2C5680
      (maskShift 7 0x9D2C5680 y))),
    xor_step _ hf y (maskShift 7 0x9D2C5680 (maskShift 7 0x9D2C5680
      (maskShift 7 0x9D2C5680 (maskShift 7 0x9D2C5680 y)))),
    maskShift7_five, Nat.xor_zero]

/-- The two-fold iteration in untemper exactly inverts the shift-11
stage for 32-bit inputs. -/
theorem invShiftR11_inverts {y : Nat} (hy : y < 2 ^ 32) :
    invShiftR11 (xorShiftR 11 y) = y := by
  have hf : ∀ a b : Nat, (a ^^^ b) >>> 11 = (a >>> 11) ^^^ (b >>> 11) :=
    fun a b => shiftRight_xor_distrib a b 11
  have hstep := xor_step (fun x => x >>> 11) hf
  simp only at hstep
  have h33 : ((y >>> 11) >>> 11) >>> 11 = 0 := by
    have e : ((y >>> 11) >>> 11) >>> 11 = y >>> 33 := by
      rw [← Nat.shiftRight_add, ← Nat.shiftRight_add]
    rw [e]
    exact shiftRight_eq_zero_of_lt (lt_of_lt_of_le hy (by norm_num))
  unfold invShiftR11 xorShiftR
  simp only []
  rw [hstep y (y >>> 11), hstep y ((y >>> 11) >>> 11), h33, Nat.xor_zero]

/-- Central inversion fact: untemper is a left inverse of temper on
32-bit values. -/
theorem untemper_temper_eq {y : Nat} (hy : y < 2 ^ 32) :
    untemper (temper y) = y := by
  have hB : (0x9D2C5680 : Nat) < 2 ^ 32 := by norm_num
  have hC : (0xEFC60000 : Nat) < 2 ^ 32 := by norm_num
  have hw : xorMaskL 7 0x9D2C5680 (xorShiftR 11 y) < 2 ^ 32 :=
    xorMaskL_lt 7 hB (xorShiftR_lt 11 hy)
  have hw15 : xorMaskL 15 0xEFC60000 (xorMaskL 7 0x9D2C5680 (xorShiftR 11 y))
      < 2 ^ 32 := xorMaskL_lt 15 hC hw
  have h36 : xorMaskL 15 0xEFC60000 (xorMaskL 7 0x9D2C5680 (xorShiftR 11 y))
      >>> (18 + 18) = 0 :=
    shiftRight_eq_zero_of_lt (lt_of_lt_of_le hw15 (by norm_num))
  rw [temper_as_stages, untemper_as_stages, xorShiftR_double 18 h36,
    xorMaskL15_involutive, invMaskL7_inverts, invShiftR11_inverts hy]
  have hmask : (0xFFFFFFFF : Nat) = 2 ^ 32 - 1 := by norm_num
  rw [hmask]
  exact Nat.and_pow_two_sub_one_of_lt_two_pow hy

/-! ### The twist invariant and clone equivalence -/

theorem xseq_base {g : Nat → Nat} {n : Nat} (h : n < 624) : xseq g n = g n := by
  rw [xseq]
  simp [h]

theorem xseq_rec (g : Nat → Nat) (n : Nat) :
    xseq g (n + 624) =
      xseq g (n + 397) ^^^ twistVal (xseq g n) (xseq g (n + 1)) := by
  rw [xseq]
  have h : ¬ (n + 624 < 624) := by omega
  have e1 : n + 624 - 227 = n + 397 := by omega
  have e2 : n + 624 - 624 = n := by omega
  have e3 : n + 624 - 623 = n + 1 := by omega
  simp [h, e1, e2, e3]

theorem twistVal_lt (a b : Nat) : twistVal a b < 2 ^ 32 := by
  simp only [twistVal]
  have hx : (a &&& UPPER_MASK) ||| (b &&& LOWER_MASK) < 2 ^ 32 := by
    apply Nat.or_lt_two_pow
    · exact Nat.lt_of_le_of_lt Nat.and_le_right (by norm_num [UPPER_MASK])
    · exact Nat.lt_of_le_of_lt Nat.and_le_right (by norm_num [LOWER_MASK])
  have hxa : ((a &&& UPPER_MASK) ||| (b &&& LOWER_MASK)) >>> 1 < 2 ^ 32 := by
    have : ((a &&& UPPER_MASK) ||| (b &&& LOWER_MASK)) >>> 1 ≤
        (a &&& UPPER_MASK) ||| (b &&& LOWER_MASK) := by
      rw [Nat.shiftRight_eq_div_pow]
      exact Nat.div_le_self _ _
    omega
  split
  · exact Nat.xor_lt_two_pow hxa (by norm_num [MATRIX_A])
  · exact hxa

theorem xseq_lt {g : Nat → Nat} (hg : ∀ j, j < 624 → g j < 2 ^ 32) :
    ∀ n, xseq g n < 2 ^ 32 := by
  intro n
  induction n using Nat.strong_induction_on with
  | _ n ih =>
    rw [xseq]
    split
    · exact hg n (by omega)
    · rename_i h
      exact Nat.xor_lt_two_pow (ih _ (by omega)) (twistVal_lt _ _)

theorem getD_set_self {l : List Nat} {i : Nat} (h : i < l.length) (a : Nat) :
    (l.set i a).getD i 0 = a := by
  simp [List.getD_eq_getElem?_getD, List.getElem?_set_self h]

theorem getD_set_ne {l : List Nat} {i j : Nat} (h : i ≠ j) (a : Nat) :
    (l.set i a).getD j 0 = l.getD j 0 := by
  simp [List.getD_eq_getElem?_getD, List.getElem?_set_ne h]

/-- Invariant of the in-place twist loop: positions below i already
hold the next window, positions from i on still hold the current one;
running the loop to the end produces the full next window. -/
theorem twistAux_invariant (g : Nat → Nat) (b : Nat) :
    ∀ fuel i mt, i + fuel = 624 → mt.length = 624 →
      (∀ j, j < i → mt.getD j 0 = xseq g (b + 624 + j)) →
      (∀ j, i ≤ j → j < 624 → mt.getD j 0 = xseq g (b + j)) →
      (twistAux fuel i mt).length = 624 ∧
        ∀ j, j < 624 → (twistAux fuel i mt).getD j 0 = xseq g (b + 624 + j) := by
  intro fuel
  induction fuel with
  | zero =>
    intro i mt hif hlen hnew _hold
    exact ⟨hlen, fun j hj => hnew j (by omega)⟩
  | succ fuel ih =>
    intro i mt hif hlen hnew hold
    have hi : i < 624 := by omega
    have hmtlen : i < mt.length := by omega
    have ha : mt.getD i 0 = xseq g (b + i) := hold i (Nat.le_refl i) hi
    have hb1 : mt.getD ((i + 1) % 624) 0 = xseq g (b + i + 1) := by
      by_cases h1 : i + 1 < 624
      · have hm : (i + 1) % 624 = i + 1 := Nat.mod_eq_of_lt h1
        rw [hm, hold (i + 1) (by omega) h1]
        exact congrArg (xseq g) (by omega)
      · have hm : (i + 1) % 624 = 0 := by omega
        rw [hm, hnew 0 (by omega)]
        exact congrArg (xseq g) (by omega)
    have hc : mt.getD ((i + 397) % 624) 0 = xseq g (b + i + 397) := by
      by_cases h2 : i + 397 < 624
      · have hm : (i + 397) % 624 = i + 397 := Nat.mod_eq_of_lt h2
        rw [hm, hold (i + 397) (by omega) h2]
        exact congrArg (xseq g) (by omega)
      · have hm : (i + 397) % 624 = i - 227 := by omega
        rw [hm, hnew (i - 227) (by omega)]
        exact congrArg (xseq g) (by omega)
    have hstep : ∀ j, (twistStep mt i).getD j 0 =
        if j = i then xseq g (b + 624 + i) else mt.getD j 0 := by
      intro j
      unfold twistStep
      by_cases hji : j = i
      · subst hji
        rw [if_pos rfl, getD_set_self hmtlen, hc, ha, hb1]
        rw [show b + 624 + j = b + j + 624 from by omega]
        exact (xseq_rec g (b + j)).symm
      · rw [if_neg hji, getD_set_ne (fun h => hji h.symm)]
    have hred : twistAux (fuel + 1) i mt = twistAux fuel (i + 1) (twistStep mt i) := rfl
    rw [hred]
    apply ih (i + 1) (twistStep mt i) (by omega)
    · simp [twistStep, hlen]
    · intro j hj
      rw [hstep j]
      by_cases hji : j = i
      · rw [if_pos hji, hji]
      · rw [if_neg hji]
        exact hnew j (by omega)
    · intro j hj1 hj2
      rw [hstep j, if_neg (by omega)]
      exact hold j (by omega) hj2

/-- The twist advances a full window by 624 positions. -/
theorem mt_twist_window {g : Nat → Nat} {b : Nat} {mt : List Nat}
    (hw : WindowAt g b mt) : WindowAt g (b + 624) (mt_twist mt) := by
  obtain ⟨hlen, hvals⟩ := hw
  have h := twistAux_invariant g b 624 0 mt (by omega) hlen
    (fun j hj => absurd hj (by omega)) (fun j _ hj => hvals j hj)
  exact ⟨h.1, fun j hj => h.2 j hj⟩

theorem outSeq_length (g : Nat → Nat) : ∀ n p, (outSeq g p n).length = n := by
  intro n
  induction n with
  | zero => intro p; rfl
  | succ n ih => intro p; simp [outSeq, ih]

/-- A single extraction from a state whose array is a window at b and
whose cursor is valid emits the tempered word at position b + index
and leaves the engine positioned one step further. -/
theorem mt_extract_window {g : Nat → Nat} {b : Nat} {s : MTState}
    (hw : WindowAt g b s.mt) (hi : s.index ≤ 624) :
    ∃ mt' i' b',
      mt_extract s =
        (temper (xseq g (b + s.index)) &&& MASK_32, MTState.mk mt' i') ∧
      WindowAt g b' mt' ∧ i' ≤ 624 ∧ b' + i' = b + s.index + 1 := by
  by_cases hge : s.index ≥ 624
  · have h624 : s.index = 624 := by omega
    have hw' : WindowAt g (b + 624) (mt_twist s.mt) := mt_twist_window hw
    refine ⟨mt_twist s.mt, 1, b + 624, ?_, hw', by norm_num, by omega⟩
    have e : mt_extract s =
        (temper ((mt_twist s.mt).getD 0 0) &&& MASK_32,
          MTState.mk (mt_twist s.mt) 1) := by
      simp [mt_extract, hge]
    rw [e, hw'.2 0 (by omega), show b + 624 + 0 = b + s.index from by omega]
  · have hlt : s.index < 624 := by omega
    refine ⟨s.mt, s.index + 1, b, ?_, hw, by omega, by omega⟩
    have e : mt_extract s =
        (temper (s.mt.getD s.index 0) &&& MASK_32,
          MTState.mk s.mt (s.index + 1)) := by
      simp [mt_extract, hge]
    rw [e, hw.2 s.index hlt]

/-- Repeated extraction from a windowed state emits the expected
output stream and leaves the engine n positions further. -/
theorem extractN_window (g : Nat → Nat) :
    ∀ n b (s : MTState), WindowAt g b s.mt → s.index ≤ 624 →
      ∃ mt' i' b',
        extractN n s = (outSeq g (b + s.index) n, MTState.mk mt' i') ∧
        WindowAt g b' mt' ∧ i' ≤ 624 ∧ b' + i' = b + s.index + n := by
  intro n
  induction n with
  | zero =>
    intro b s hw hi
    exact ⟨s.mt, s.index, b, rfl, hw, hi, rfl⟩
  | succ n ih =>
    intro b s hw hi
    obtain ⟨mt1, i1, b1, he1, hw1, hi1, hp1⟩ := mt_extract_window hw hi
    obtain ⟨mt2, i2, b2, he2, hw2, hi2, hp2⟩ := ih b1 (MTState.mk mt1 i1) hw1 hi1
    have he2' : extractN n (MTState.mk mt1 i1) =
        (outSeq g (b1 + i1) n, MTState.mk mt2 i2) := he2
    have hp2' : b2 + i2 = b1 + i1 + n := hp2
    have hfst : (mt_extract s).1 = temper (xseq g (b + s.index)) &&& MASK_32 := by
      rw [he1]
    have hsnd : (mt_extract s).2 = MTState.mk mt1 i1 := by
      rw [he1]
    refine ⟨mt2, i2, b2, ?_, hw2, hi2, by omega⟩
    have hrec : extractN n (mt_extract s).2 =
        (outSeq g (b + s.index + 1) n, MTState.mk mt2 i2) := by
      rw [hsnd, he2', hp1]
    show ((mt_extract s).1 :: (extractN n (mt_extract s).2).1,
        (extractN n (mt_extract s).2).2) =
      (outSeq g (b + s.index) (n + 1), MTState.mk mt2 i2)
    rw [hfst, hrec]
    exact rfl

theorem temper_lt {y : Nat} (hy : y < 2 ^ 32) : temper y < 2 ^ 32 := by
  rw [temper_as_stages]
  exact xorShiftR_lt 18 (xorMaskL_lt 15 (by norm_num)
    (xorMaskL_lt 7 (by norm_num) (xorShiftR_lt 11 hy)))

/-- Untempering a masked, tempered 32-bit word recovers the word. -/
theorem untemper_output {x : Nat} (hx : x < 2 ^ 32) :
    untemper (temper x &&& MASK_32) = x := by
  have ht : temper x < 2 ^ 32 := temper_lt hx
  have hm : temper x &&& MASK_32 = temper x := by
    have hmask : (MASK_32 : Nat) = 2 ^ 32 - 1 := by norm_num [MASK_32]
    rw [hmask]
    exact Nat.and_pow_two_sub_one_of_lt_two_pow ht
  rw [hm]
  exact untemper_temper_eq hx

theorem winList_length (g : Nat → Nat) : ∀ n p, (winList g p n).length = n := by
  intro n
  induction n with
  | zero => intro p; rfl
  | succ n ih => intro p; simp [winList, ih]

theorem winList_getD (g : Nat → Nat) :
    ∀ n p j, j < n → (winList g p n).getD j 0 = xseq g (p + j) := by
  intro n
  induction n with
  | zero => intro p j hj; omega
  | succ n ih =>
    intro p j hj
    cases j with
    | zero => simp [winList]
    | succ j =>
      show (winList g (p + 1) n).getD j 0 = xseq g (p + (j + 1))
      rw [ih (p + 1) j (by omega)]
      exact congrArg (xseq g) (by omega)

/-- Untempering the observed output stream recovers the window of
raw state words it came from. -/
theorem outSeq_map_untemper {g : Nat → Nat} (hg : ∀ n, xseq g n < 2 ^ 32) :
    ∀ n p, (outSeq g p n).map untemper = winList g p n := by
  intro n
  induction n with
  | zero => intro p; rfl
  | succ n ih =>
    intro p
    show untemper (temper (xseq g p) &&& MASK_32) ::
        (outSeq g (p + 1) n).map untemper =
      xseq g p :: winList g (p + 1) n
    rw [untemper_output (hg p), ih (p + 1)]

/-- Core cloning fact behind claim C2.  From any valid engine state
(624 words of 32 bits, cursor at most 624), record 624 consecutive
outputs, untemper them into a fresh state with cursor 624: the clone
then reproduces the victim's next 1000 outputs exactly. -/
theorem mt_clone_core (s : MTState) (hlen : s.mt.length = 624)
    (hwords : ∀ w ∈ s.mt, w < 2 ^ 32) (hidx : s.index ≤ 624) :
    clone_mt (extractN 624 s).1 =
      some (MTState.mk ((extractN 624 s).1.map untemper) 624) ∧
    (extractN 1000 (MTState.mk ((extractN 624 s).1.map untemper) 624)).1 =
      (extractN 1000 (extractN 624 s).2).1 := by
  have hgbound : ∀ j, j < 624 → s.mt.getD j 0 < 2 ^ 32 := by
    intro j hj
    have hjl : j < s.mt.length := by omega
    have hmem : s.mt.getD j 0 ∈ s.mt := by
      rw [List.getD_eq_getElem?_getD, List.getElem?_eq_getElem hjl]
      exact List.getElem_mem hjl
    exact hwords _ hmem
  set g : Nat → Nat := fun j => s.mt.getD j 0 with hgdef
  have hxb : ∀ n, xseq g n < 2 ^ 32 := xseq_lt hgbound
  have hw0 : WindowAt g 0 s.mt := by
    refine ⟨hlen, fun j hj => ?_⟩
    rw [xseq_base (show 0 + j < 624 from by omega)]
    show s.mt.getD j 0 = g (0 + j)
    rw [hgdef]
    simp
  obtain ⟨mt1, i1, b1, he1, hw1, hi1, hp1⟩ := extractN_window g 624 0 s hw0 hidx
  have hobs : (extractN 624 s).1 = outSeq g (0 + s.index) 624 := by rw [he1]
  have hlenobs : (extractN 624 s).1.length = 624 := by
    rw [hobs]
    exact outSeq_length g 624 _
  have hmap : (extractN 624 s).1.map untemper = winList g (0 + s.index) 624 := by
    rw [hobs]
    exact outSeq_map_untemper hxb 624 _
  have hwc : WindowAt g (0 + s.index) ((extractN 624 s).1.map untemper) := by
    rw [hmap]
    exact ⟨winList_length g 624 _, fun j hj => winList_getD g 624 _ j hj⟩
  obtain ⟨mtc, ic, bc, hec, hwc2, hic, hpc⟩ :=
    extractN_window g 1000 (0 + s.index)
      (MTState.mk ((extractN 624 s).1.map untemper) 624) hwc (Nat.le_refl 624)
  obtain ⟨mtv, iv, bv, hev, hwv2, hiv, hpv⟩ :=
    extractN_window g 1000 b1 (MTState.mk mt1 i1) hw1 hi1
  have hec' : extractN 1000 (MTState.mk ((extractN 624 s).1.map untemper) 624) =
      (outSeq g (0 + s.index + 624) 1000, MTState.mk mtc ic) := hec
  have hev' : extractN 1000 (MTState.mk mt1 i1) =
      (outSeq g (b1 + i1) 1000, MTState.mk mtv iv) := hev
  constructor
  · unfold clone_mt
    rw [if_pos hlenobs]
  · have hsnd : (extractN 624 s).2 = MTState.mk mt1 i1 := by rw [he1]
    rw [hsnd, hec', hev', hp1]

/-! ### Floored modulus under negation -/

theorem fdiv_neg_neg (a b : Int) : Int.fdiv (-a) (-b) = Int.fdiv a b := by
  rcases a with (_ | m) | m <;> rcases b with (_ | n) | n <;>
    first
      | rfl
      | (simp only [show -Int.ofNat 0 = 0 from rfl, show Int.ofNat 0 = 0 from rfl,
          neg_zero, Int.fdiv_zero])

theorem fmod_neg_neg (a b : Int) : Int.fmod (-a) (-b) = -(Int.fmod a b) := by
  rw [Int.fmod_def, Int.fmod_def, fdiv_neg_neg]
  ring

/-- For a negative divisor the floored modulus lies in the half-open
interval from the divisor (exclusive) to zero (inclusive). -/
theorem fmod_bounds_of_neg (a : Int) {b : Int} (hb : b < 0) :
    b < Int.fmod a b ∧ Int.fmod a b ≤ 0 := by
  have h1 : 0 ≤ Int.fmod (-a) (-b) := Int.fmod_nonneg' _ (by omega)
  have h2 : Int.fmod (-a) (-b) < -b := Int.fmod_lt_of_pos _ (by omega)
  rw [fmod_neg_neg] at h1 h2
  omega

/-! ### Claim theorems for C1, C2, C4 and C7 -/

/-- C1: for every 32-bit unsigned integer x, untemper (temper x) = x:
the untemper function is a left inverse of the MT19937 tempering
transform, both as pure functions on 32-bit values. -/
theorem C1_untemper_temper (x : Nat) (hx : x < 2 ^ 32) :
    untemper (temper x) = x :=
  untemper_temper_eq hx

/-- Witness for C1 at the concrete input 123456789. -/
theorem C1_untemper_temper_witness :
    123456789 < 2 ^ 32 ∧ untemper (temper 123456789) = 123456789 :=
  ⟨by norm_num, C1_untemper_temper 123456789 (by norm_num)⟩

/-- C2: from any MT19937 engine state (624 words of 32 bits, cursor
at most 624), record exactly 624 consecutive extracted outputs and
build the clone by untempering them with the cursor forced to 624:
the clone exists and its next 1000 extractions are identical to the
victim's next 1000 extractions. -/
theorem C2_clone_predicts (s : MTState) (hlen : s.mt.length = 624)
    (hwords : ∀ w ∈ s.mt, w < 2 ^ 32) (hidx : s.index ≤ 624) :
    ∃ c, clone_mt (extractN 624 s).1 = some c ∧
      (extractN 1000 c).1 = (extractN 1000 (extractN 624 s).2).1 :=
  ⟨MTState.mk ((extractN 624 s).1.map untemper) 624,
    (mt_clone_core s hlen hwords hidx).1,
    (mt_clone_core s hlen hwords hidx).2⟩

/-- Witness for C2 on the engine seeded with 42. -/
theorem C2_clone_predicts_witness :
    ((mt_init 42).mt.length = 624 ∧ (∀ w ∈ (mt_init 42).mt, w < 2 ^ 32) ∧
      (mt_init 42).index ≤ 624) ∧
    ∃ c, clone_mt (extractN 624 (mt_init 42)).1 = some c ∧
      (extractN 1000 c).1 = (extractN 1000 (extractN 624 (mt_init 42)).2).1 :=
  ⟨⟨by decide, by decide, by decide⟩,
    C2_clone_predicts (mt_init 42) (by decide) (by decide) (by decide)⟩

/-- C4: with a positive modulus, lcg_next returns (a*s+c) mod m both
as the value and as the new state, the value lies in [0, m), and
identical seeds and parameters reproduce identical sequences. -/
theorem C4_lcg_next_correct (s a c m : Int) (hm : 0 < m) :
    lcg_next s a c m = some ((a * s + c) % m, (a * s + c) % m) ∧
    0 ≤ (a * s + c) % m ∧ (a * s + c) % m < m ∧
    (∀ (n : Nat) (s' a' c' m' : Int), s' = s → a' = a → c' = c → m' = m →
      lcg_generate_sequence n s' a' c' m' =
        lcg_generate_sequence n s a c m) := by
  refine ⟨?_, Int.emod_nonneg _ (by omega), Int.emod_lt_of_pos _ hm, ?_⟩
  · unfold lcg_next pymod
    rw [if_neg (by omega), Int.fmod_eq_emod _ (le_of_lt hm)]
    rfl
  · intro n s' a' c' m' h1 h2 h3 h4
    rw [h1, h2, h3, h4]

/-- Witness for C4 with the glibc parameters and seed 42. -/
theorem C4_lcg_next_correct_witness :
    (0 : Int) < 2 ^ 31 ∧
    (lcg_next 42 1103515245 12345 (2 ^ 31) =
        some ((1103515245 * 42 + 12345) % 2 ^ 31,
          (1103515245 * 42 + 12345) % 2 ^ 31) ∧
      0 ≤ (1103515245 * 42 + 12345) % (2 ^ 31 : Int) ∧
      (1103515245 * 42 + 12345) % (2 ^ 31 : Int) < 2 ^ 31 ∧
      (∀ (n : Nat) (s' a' c' m' : Int),
        s' = 42 → a' = 1103515245 → c' = 12345 → m' = 2 ^ 31 →
        lcg_generate_sequence n s' a' c' m' =
          lcg_generate_sequence n 42 1103515245 12345 (2 ^ 31))) :=
  ⟨by norm_num, C4_lcg_next_correct 42 1103515245 12345 (2 ^ 31) (by norm_num)⟩

/-- Counterexample to C7: with the negative modulus -7 the LCG step
does not fail with any error; it computes the Python floored modulus
and returns the value -6. -/
theorem C7_counterexample : lcg_next 1 3 5 (-7) = some (-6, -6) := by decide

/-- C7 amended: no InvalidParameter check exists; an LCG operation
fails exactly when m = 0 (Python's ZeroDivisionError), while for
negative m it succeeds, returning the floored modulus of (a*s+c), a
value in the interval from m (exclusive) to 0 (inclusive). -/
theorem C7_lcg_nonpositive_modulus (s a c : Int) :
    lcg_next s a c 0 = none ∧
    lcg_generate_bytes 5 s a c 0 = none ∧
    lcg_generate_sequence 5 s a c 0 = none ∧
    ∀ m : Int, m < 0 →
      lcg_next s a c m = some ((a * s + c).fmod m, (a * s + c).fmod m) ∧
      m < (a * s + c).fmod m ∧ (a * s + c).fmod m ≤ 0 := by
  refine ⟨rfl, rfl, rfl, ?_⟩
  intro m hm
  refine ⟨?_, (fmod_bounds_of_neg _ hm).1, (fmod_bounds_of_neg _ hm).2⟩
  unfold lcg_next pymod
  rw [if_neg (by omega)]
  rfl

/-- Witness for the amended C7 at concrete parameters. -/
theorem C7_lcg_nonpositive_modulus_witness :
    (lcg_next 1 3 5 0 = none ∧
      lcg_generate_bytes 5 1 3 5 0 = none ∧
      lcg_generate_sequence 5 1 3 5 0 = none ∧
      ∀ m : Int, m < 0 →
        lcg_next 1 3 5 m = some (((3 : Int) * 1 + 5).fmod m, ((3 : Int) * 1 + 5).fmod m) ∧
        m < ((3 : Int) * 1 + 5).fmod m ∧ ((3 : Int) * 1 + 5).fmod m ≤ 0) ∧
    ((-7 : Int) < 0) :=
  ⟨C7_lcg_nonpositive_modulus 1 3 5, by norm_num⟩

/-! ### BBS and XOR combiner lemmas -/

theorem bbsSample_eq_find (m : Nat) (cands : List Nat) :
    bbsSample m cands = cands.find? (fun c => Nat.gcd c m == 1) := by
  induction cands with
  | nil => rfl
  | cons c rest ih =>
    by_cases h : Nat.gcd c m = 1
    · have hb : (Nat.gcd c m == 1) = true := by simp [h]
      simp [bbsSample, h, List.find?, hb]
    · have hb : (Nat.gcd c m == 1) = false := by simp [h]
      simp [bbsSample, h, List.find?, hb, ih]

theorem bbsSample_gcd {m : Nat} {cands : List Nat} {s : Nat}
    (h : bbsSample m cands = some s) : Nat.gcd s m = 1 := by
  rw [bbsSample_eq_find] at h
  have := List.find?_some h
  simpa using this

theorem bbsSample_mem {m : Nat} {cands : List Nat} {s : Nat}
    (h : bbsSample m cands = some s) : s ∈ cands := by
  rw [bbsSample_eq_find] at h
  exact List.mem_of_find?_eq_some h

/-- The seedless path of bbs_init equals taking the first coprime
candidate. -/
theorem bbs_init_none_eq (p q : Nat) (cands : List Nat) :
    bbs_init none p q cands =
      (cands.find? (fun c => Nat.gcd c (p * q) == 1)).map
        (fun s => BBSState.mk s (p * q) p q) := by
  rw [← bbsSample_eq_find]
  cases h : bbsSample (p * q) cands with
  | none => simp [bbs_init, h]
  | some s =>
    have hg : Nat.gcd s (p * q) = 1 := bbsSample_gcd h
    simp [bbs_init, h, hg]

theorem xorFold_none {n : Nat} (l : List (List Nat))
    (h : ∃ ba ∈ l, ba.length < n) : ∀ acc, xorFold n acc l = none := by
  induction l with
  | nil => simp at h
  | cons ba rest ih =>
    intro acc
    by_cases hba : ba.length < n
    · simp [xorFold, xorInto, hba]
    · obtain ⟨x, hx, hlen⟩ := h
      cases List.mem_cons.mp hx with
      | inl heq =>
        subst heq
        exact absurd hlen hba
      | inr hmem =>
        simp only [xorFold, xorInto, if_neg hba]
        exact ih ⟨x, hmem, hlen⟩ _

theorem xorFold_all {n : Nat} (l : List (List Nat)) :
    ∀ acc, acc.length = n → (∀ ba ∈ l, ba.length = n) →
    ∃ out, xorFold n acc l = some out ∧ out.length = n ∧
      ∀ i, i < n → out.getD i 0 =
        l.foldl (fun a ba => a ^^^ ba.getD i 0) (acc.getD i 0) := by
  induction l with
  | nil =>
    intro acc hacc _
    exact ⟨acc, rfl, hacc, fun i _ => rfl⟩
  | cons ba rest ih =>
    intro acc hacc hl
    have hba : ba.length = n := hl ba (List.mem_cons_self ba rest)
    have hnot : ¬ ba.length < n := by omega
    have hzlen : (List.zipWith (fun x y => x ^^^ y) acc (ba.take n)).length = n := by
      simp [hacc, hba]
    obtain ⟨out, ho, hol, hov⟩ := ih _ hzlen (fun x hx => hl x (List.mem_cons_of_mem _ hx))
    refine ⟨out, ?_, hol, ?_⟩
    · simp only [xorFold, xorInto, if_neg hnot]
      exact ho
    · intro i hi
      rw [hov i hi]
      show _ = List.foldl _ (acc.getD i 0 ^^^ ba.getD i 0) rest
      congr 1
      have hiz : i < (List.zipWith (fun x y => x ^^^ y) acc (ba.take n)).length := by
        omega
      rw [List.getD_eq_getElem?_getD, List.getElem?_eq_getElem hiz,
        Option.getD_some, List.getElem_zipWith]
      congr 1
      · rw [List.getD_eq_getElem?_getD,
          List.getElem?_eq_getElem (show i < acc.length from by omega),
          Option.getD_some]
      · rw [List.getElem_take, List.getD_eq_getElem?_getD,
          List.getElem?_eq_getElem (show i < ba.length from by omega),
          Option.getD_some]

/-- C5: a supplied BBS seed not coprime with p*q is rejected with no
state created; with no seed, init rejection-samples: it accepts
exactly the first candidate draw coprime with p*q, so the created
state is coprime with the modulus and lies in [2, p*q - 1] whenever
the randint collaborator draws from that range. -/
theorem C5_bbs_init_seed (p q : Nat) :
    (∀ s cands, Nat.gcd s (p * q) ≠ 1 → bbs_init (some s) p q cands = none) ∧
    (∀ cands, bbs_init none p q cands =
      (cands.find? (fun c => Nat.gcd c (p * q) == 1)).map
        (fun s => BBSState.mk s (p * q) p q)) ∧
    (∀ cands st, (∀ c ∈ cands, 2 ≤ c ∧ c ≤ p * q - 1) →
      bbs_init none p q cands = some st →
      Nat.gcd st.state (p * q) = 1 ∧ 2 ≤ st.state ∧ st.state ≤ p * q - 1) := by
  refine ⟨?_, bbs_init_none_eq p q, ?_⟩
  · intro s cands h
    simp [bbs_init, h]
  · intro cands st hrange hinit
    rw [bbs_init_none_eq] at hinit
    cases hfind : cands.find? (fun c => Nat.gcd c (p * q) == 1) with
    | none => rw [hfind] at hinit; simp at hinit
    | some s =>
      rw [hfind] at hinit
      have hgcd : Nat.gcd s (p * q) = 1 := by
        have := List.find?_some hfind
        simpa using this
      have hmem : s ∈ cands := List.mem_of_find?_eq_some hfind
      obtain ⟨h2, h3⟩ := hrange s hmem
      have hst : BBSState.mk s (p * q) p q = st := by
        simpa using hinit
      rw [← hst]
      exact ⟨hgcd, h2, h3⟩

/-- Witness for C5: the seed 14 shares the factor 7 with 7 * 11 and
is rejected. -/
theorem C5_bbs_init_seed_witness :
    Nat.gcd 14 (7 * 11) ≠ 1 ∧ bbs_init (some 14) 7 11 [] = none :=
  ⟨by decide, (C5_bbs_init_seed 7 11).1 14 [] (by decide)⟩

/-- Counterexample to C6: the combiner does not fail on inputs of
unequal length when a later input is longer than the first; the
longer input is silently truncated and the call succeeds. -/
theorem C6_counterexample :
    xor_bytes_list [[1, 2], [3, 4, 5]] = some [2, 6] := by decide

/-- C6 amended: there is no LengthMismatch check.  The combiner fails
(IndexError) when some input is shorter than the first; inputs longer
than the first are silently truncated; when all inputs have the equal
length n the result is the position-wise xor of all inputs, of
length n. -/
theorem C6_xor_combiner (b0 : List Nat) (rest : List (List Nat)) :
    ((∃ ba ∈ b0 :: rest, ba.length < b0.length) →
      xor_bytes_list (b0 :: rest) = none) ∧
    ((∀ ba ∈ b0 :: rest, ba.length = b0.length) →
      ∃ out, xor_bytes_list (b0 :: rest) = some out ∧
        out.length = b0.length ∧
        ∀ i, i < b0.length →
          out.getD i 0 =
            (b0 :: rest).foldl (fun acc ba => acc ^^^ ba.getD i 0) 0) := by
  constructor
  · intro h
    show xorFold b0.length (List.replicate b0.length 0) (b0 :: rest) = none
    exact xorFold_none _ h _
  · intro h
    obtain ⟨out, ho, hol, hov⟩ :=
      xorFold_all (b0 :: rest) (List.replicate b0.length 0)
        (List.length_replicate _ _) h
    refine ⟨out, ho, hol, ?_⟩
    intro i hi
    rw [hov i hi]
    congr 1
    rw [List.getD_eq_getElem?_getD,
      List.getElem?_eq_getElem (show i < (List.replicate b0.length 0).length from by simp [hi]),
      Option.getD_some, List.getElem_replicate]

/-- Witness for C6 on two equal-length inputs. -/
theorem C6_xor_combiner_witness :
    (∀ ba ∈ ([[1, 2], [3, 4]] : List (List Nat)),
      ba.length = ([1, 2] : List Nat).length) ∧
    ∃ out, xor_bytes_list [[1, 2], [3, 4]] = some out ∧
      out.length = ([1, 2] : List Nat).length ∧
      ∀ i, i < ([1, 2] : List Nat).length →
        out.getD i 0 =
          ([[1, 2], [3, 4]] : List (List Nat)).foldl
            (fun acc ba => acc ^^^ ba.getD i 0) 0 :=
  ⟨by decide, (C6_xor_combiner [1, 2] [[3, 4]]).2 (by decide)⟩

/-! ### DRBG lemmas -/

theorem hmacUpdate_counter (hm : List Nat → List Nat → List Nat)
    (pd : List Nat) (st : HmacDrbgState) :
    (hmacUpdate hm pd st).reseed_counter = st.reseed_counter ∧
    (hmacUpdate hm pd st).reseed_interval = st.reseed_interval := by
  simp only [hmacUpdate]
  split <;> exact ⟨rfl, rfl⟩

theorem hmacInstantiate_counter (hm : List Nat → List Nat → List Nat)
    (E N P : List Nat) :
    (hmacInstantiate hm E N P).reseed_counter = 1 ∧
    (hmacInstantiate hm E N P).reseed_interval = 10000 := by
  unfold hmacInstantiate
  exact hmacUpdate_counter hm _ _

theorem hmacGenLoop_length (hm : List Nat → List Nat → List Nat) (K : List Nat)
    (hL : ∀ k d, (hm k d).length = 32) :
    ∀ fuel numBytes V temp, numBytes ≤ temp.length + 32 * fuel →
      numBytes ≤ (hmacGenLoop hm K fuel numBytes V temp).2.length := by
  intro fuel
  induction fuel with
  | zero =>
    intro nb V temp h
    simp only [hmacGenLoop]
    omega
  | succ fuel ih =>
    intro nb V temp h
    simp only [hmacGenLoop]
    split
    · apply ih
      simp [hL]
      omega
    · rename_i hc
      simp only []
      omega

theorem drbgGenAux_length (hash : List Nat → List Nat)
    (hL : ∀ d, (hash d).length = 32) (vlen : Nat) :
    ∀ m data, (drbgGenAux hash vlen m data).length = 32 * m := by
  intro m
  induction m with
  | zero => intro data; rfl
  | succ m ih =>
    intro data
    simp only [drbgGenAux, List.length_append, hL, ih]
    omega

/-- Structural fact for the additional-input path of the HMAC
generate: with a non-empty additional input the update runs before
any byte is produced, so the emitted bytes are exactly the bytes
generate emits, without additional input, from the updated state. -/
theorem hmacGenerate_additional_input (hm : List Nat → List Nat → List Nat)
    (st : HmacDrbgState) (add : List Nat) (n : Nat) (hadd : add ≠ [])
    (hok : st.reseed_counter ≤ st.reseed_interval) :
    (hmacGenerate hm n add st).1 =
      (hmacGenerate hm n [] (hmacUpdate hm add st)).1 := by
  obtain ⟨hc1, hc2⟩ := hmacUpdate_counter hm add st
  have h1 : ¬ st.reseed_counter > st.reseed_interval := by omega
  have h2 : ¬ (hmacUpdate hm add st).reseed_counter >
      (hmacUpdate hm add st).reseed_interval := by omega
  unfold hmacGenerate
  rw [if_neg h1, if_neg h2]
  simp [hadd]

/-- Counterexample to C3: the Hash-DRBG drbg_generate has no
reseed-interval check.  At reseed_counter = 10001 (past the claimed
interval of 10000) it still emits an output byte and advances the
counter, here shown on a concrete state with a fixed stand-in for
the hash collaborator; the amended theorem shows the same for every
hash collaborator. -/
theorem C3_counterexample :
    (drbg_generate (fun _ => List.replicate 32 0)
      (HashDrbgState.mk (List.replicate 55 1) (List.replicate 55 2) 10001)
      1).1 = [0] ∧
    (drbg_generate (fun _ => List.replicate 32 0)
      (HashDrbgState.mk (List.replicate 55 1) (List.replicate 55 2) 10001)
      1).2.reseed_counter = 10002 := by
  constructor <;> decide

/-- C3 amended: only the HMAC variant enforces the reseed interval:
its generate refuses with None and leaves the state untouched when
reseed_counter exceeds reseed_interval.  The Hash variant has no such
check: for every hash collaborator with 32-byte digests and every
state, also past the interval, drbg_generate emits num_bytes output
bytes and increments the counter. -/
theorem C3_reseed_refusal (hm : List Nat → List Nat → List Nat)
    (hash : List Nat → List Nat) :
    (∀ (st : HmacDrbgState) n add, st.reseed_counter > st.reseed_interval →
      hmacGenerate hm n add st = (none, st)) ∧
    (∀ (st : HashDrbgState) n, (∀ d, (hash d).length = 32) → 0 < n →
      (drbg_generate hash st n).1.length = n ∧
      (drbg_generate hash st n).2.reseed_counter = st.reseed_counter + 1) := by
  constructor
  · intro st n add h
    unfold hmacGenerate
    rw [if_pos h]
  · intro st n hL hn
    constructor
    · show (List.take n (drbgGenAux hash st.V.length ((n + 31) / 32) st.V)).length = n
      rw [List.length_take, drbgGenAux_length hash hL]
      omega
    · rfl

/-- Witness for the amended C3: the HMAC generate refuses at counter
10001 over interval 10000, returning None with the state unchanged. -/
theorem C3_reseed_refusal_witness :
    (10001 > 10000) ∧
    hmacGenerate (fun _ _ => List.replicate 32 7) 16 []
        (HmacDrbgState.mk (List.replicate 32 1) (List.replicate 32 0)
          10001 10000) =
      (none, HmacDrbgState.mk (List.replicate 32 1) (List.replicate 32 0)
        10001 10000) :=
  ⟨by decide,
    (C3_reseed_refusal (fun _ _ => List.replicate 32 7)
        (fun _ => List.replicate 32 0)).1
      (HmacDrbgState.mk (List.replicate 32 1) (List.replicate 32 0)
        10001 10000) 16 [] (by decide)⟩

/-- C8: for a fixed entropy, nonce and personalization triple,
instantiate followed by generate(32) is deterministic: two runs on
equal inputs produce equal results, and the result is 32 bytes (no
hidden randomness enters the construction). -/
theorem C8_hmac_drbg_deterministic (hm : List Nat → List Nat → List Nat)
    (hL : ∀ k d, (hm k d).length = 32) (E1 N1 P1 E2 N2 P2 : List Nat)
    (hE : E1 = E2) (hN : N1 = N2) (hP : P1 = P2) :
    (hmacGenerate hm 32 [] (hmacInstantiate hm E1 N1 P1)).1 =
      (hmacGenerate hm 32 [] (hmacInstantiate hm E2 N2 P2)).1 ∧
    ∃ out, (hmacGenerate hm 32 [] (hmacInstantiate hm E1 N1 P1)).1 = some out ∧
      out.length = 32 := by
  subst hE
  subst hN
  subst hP
  obtain ⟨hc1, hc2⟩ := hmacInstantiate_counter hm E1 N1 P1
  have hnot : ¬ (hmacInstantiate hm E1 N1 P1).reseed_counter >
      (hmacInstantiate hm E1 N1 P1).reseed_interval := by omega
  refine ⟨rfl, ?_⟩
  refine ⟨(hmacGenLoop hm (hmacInstantiate hm E1 N1 P1).Key 32 32
      (hmacInstantiate hm E1 N1 P1).V []).2.take 32, ?_, ?_⟩
  · show (hmacGenerate hm 32 [] (hmacInstantiate hm E1 N1 P1)).1 = _
    unfold hmacGenerate
    rw [if_neg hnot]
    simp
  · rw [List.length_take]
    have := hmacGenLoop_length hm (hmacInstantiate hm E1 N1 P1).Key hL 32 32
      (hmacInstantiate hm E1 N1 P1).V [] (by simp)
    omega

/-- Witness for C8 with a fixed 32-byte collaborator and concrete
inputs. -/
theorem C8_hmac_drbg_deterministic_witness :
    (∀ k d, ((fun (_ _ : List Nat) => List.replicate 32 5) k d).length = 32) ∧
    (([6] : List Nat) = [6]) ∧ (([7] : List Nat) = [7]) ∧
    (([8] : List Nat) = [8]) ∧
    ((hmacGenerate (fun _ _ => List.replicate 32 5) 32 []
        (hmacInstantiate (fun _ _ => List.replicate 32 5) [6] [7] [8])).1 =
      (hmacGenerate (fun _ _ => List.replicate 32 5) 32 []
        (hmacInstantiate (fun _ _ => List.replicate 32 5) [6] [7] [8])).1 ∧
    ∃ out, (hmacGenerate (fun _ _ => List.replicate 32 5) 32 []
        (hmacInstantiate (fun _ _ => List.replicate 32 5) [6] [7] [8])).1 =
          some out ∧ out.length = 32) :=
  ⟨fun k d => by simp, rfl, rfl, rfl,
    C8_hmac_drbg_deterministic (fun _ _ => List.replicate 32 5)
      (fun k d => by simp) [6] [7] [8] [6] [7] [8] rfl rfl rfl⟩

/-- C9: both reseed operations run their update derivation on the
entropy (concatenated with the additional input for the HMAC variant)
and reset the counter to exactly 1, after which a generate call is
not refused: the HMAC generate returns bytes, and the Hash generate
proceeds and advances the counter to 2. -/
theorem C9_reseed_resets (hm : List Nat → List Nat → List Nat)
    (hash : List Nat → List Nat) :
    (∀ E A (st : HmacDrbgState), st.reseed_interval = 10000 →
      (hmacReseed hm E A st).reseed_counter = 1 ∧
      (hmacReseed hm E A st).V = (hmacUpdate hm (E ++ A) st).V ∧
      (hmacReseed hm E A st).Key = (hmacUpdate hm (E ++ A) st).Key ∧
      ∀ n add,
        (hmacGenerate hm n add (hmacReseed hm E A st)).1.isSome = true) ∧
    (∀ (st : HashDrbgState) E,
      (drbg_reseed hash st E).reseed_counter = 1 ∧
      (drbg_reseed hash st E).V = hash_df hash (1 :: (st.V ++ E)) SEED_LEN ∧
      (drbg_reseed hash st E).C =
        hash_df hash (0 :: hash_df hash (1 :: (st.V ++ E)) SEED_LEN) SEED_LEN ∧
      ∀ n, (drbg_generate hash (drbg_reseed hash st E) n).2.reseed_counter = 2) := by
  constructor
  · intro E A st hint
    refine ⟨rfl, rfl, rfl, ?_⟩
    intro n add
    have hc := hmacUpdate_counter hm (E ++ A) st
    have hcnt : (hmacReseed hm E A st).reseed_counter = 1 := rfl
    have hi : (hmacReseed hm E A st).reseed_interval = st.reseed_interval := by
      show (hmacUpdate hm (E ++ A) st).reseed_interval = st.reseed_interval
      exact hc.2
    have hnot : ¬ (hmacReseed hm E A st).reseed_counter >
        (hmacReseed hm E A st).reseed_interval := by
      rw [hcnt, hi, hint]
      omega
    simp [hmacGenerate, hnot]
  · intro st E
    exact ⟨rfl, rfl, rfl, fun n => rfl⟩

/-- Witness for C9 on a concrete HMAC-DRBG state with the standard
interval. -/
theorem C9_reseed_resets_witness :
    ((HmacDrbgState.mk (List.replicate 32 3) (List.replicate 32 4)
        777 10000).reseed_interval = 10000) ∧
    ((hmacReseed (fun _ _ => List.replicate 32 5) [9] [10]
        (HmacDrbgState.mk (List.replicate 32 3) (List.replicate 32 4)
          777 10000)).reseed_counter = 1 ∧
      (hmacReseed (fun _ _ => List.replicate 32 5) [9] [10]
        (HmacDrbgState.mk (List.replicate 32 3) (List.replicate 32 4)
          777 10000)).V =
        (hmacUpdate (fun _ _ => List.replicate 32 5) ([9] ++ [10])
          (HmacDrbgState.mk (List.replicate 32 3) (List.replicate 32 4)
            777 10000)).V ∧
      (hmacReseed (fun _ _ => List.replicate 32 5) [9] [10]
        (HmacDrbgState.mk (List.replicate 32 3) (List.replicate 32 4)
          777 10000)).Key =
        (hmacUpdate (fun _ _ => List.replicate 32 5) ([9] ++ [10])
          (HmacDrbgState.mk (List.replicate 32 3) (List.replicate 32 4)
            777 10000)).Key ∧
      ∀ n add,
        (hmacGenerate (fun _ _ => List.replicate 32 5) n add
          (hmacReseed (fun _ _ => List.replicate 32 5) [9] [10]
            (HmacDrbgState.mk (List.replicate 32 3) (List.replicate 32 4)
              777 10000))).1.isSome = true) :=
  ⟨by decide,
    (C9_reseed_resets (fun _ _ => List.replicate 32 5)
        (fun _ => List.replicate 32 0)).1 [9] [10]
      (HmacDrbgState.mk (List.replicate 32 3) (List.replicate 32 4)
        777 10000) (by decide)⟩
